import Mathlib

/-!
Verification of the cpp_metaheuristics solver core against its
natural-language specification.

The development shallowly embeds the relevant C++ sources:
* `AbstractMultiArray` (src/cppmh/model/constraint_reference.h): strides,
  flat/multi-dimensional index conversion and element labels;
* `Memory` (src/printemps/solver/memory.h): per-variable update counters
  and the bias concentration measure;
* `IncumbentHolder` (incumbent_holder.h): the three incumbents and their
  update rule;
* the outer solver loop of `solve` (src/cppmh/solver/solver.h): the
  stagnation counter and the penalty-coefficient update step;
* `Model::evaluate` (model.h is not among the sources; modelled from the
  specification, section 4.3).

C++ `double` values are embedded as exact rationals (`ℚ`), machine
integers as `Nat`/`Int` (all quantities involved stay far from the
32/64-bit ranges on the inputs considered, and index arithmetic never
overflows for in-range indices).
-/

namespace CppMH

/-! ## Multi-dimensional array store (AbstractMultiArray) -/

/-- Strides of a row-major dense array, as computed by
`AbstractMultiArray::compute_strides`: the last stride is `1` and stride
`i` is the product of the shape entries after position `i`. -/
def compute_strides : List Nat → List Nat
  | [] => []
  | _ :: rest => rest.prod :: compute_strides rest

/-- `AbstractMultiArray::flat_index`: inner product of a
multi-dimensional index with the strides (`std::inner_product` with
initial value `0`). -/
def flat_index (strides multiIndex : List Nat) : Nat :=
  (List.zipWith (fun d s => d * s) multiIndex strides).sum

/-- `AbstractMultiArray::multi_dimensional_index`: repeated division by
the strides, keeping the remainder. -/
def multi_dimensional_index : List Nat → Nat → List Nat
  | [], _ => []
  | s :: rest, remain => remain / s :: multi_dimensional_index rest (remain % s)

/-- Number of elements of an array with the given shape
(`m_number_of_elements`, the product of the shape entries). -/
def number_of_elements (shape : List Nat) : Nat := shape.prod

/-- The largest shape entry (`utility::max(a_SHAPE)`). -/
def maxShapeEntry (shape : List Nat) : Nat := shape.foldl max 0

/-- `m_max_digits`: the length of the decimal representation of the
largest shape entry (`std::to_string(utility::max(a_SHAPE)).size()`). -/
def max_digits (shape : List Nat) : Nat := (toString (maxShapeEntry shape)).length

/-- Left-pad a string with spaces up to the given width, exactly as the
`printf` format `%Nd` does for non-negative integers (no truncation). -/
def padLeftSpaces (width : Nat) (s : String) : String :=
  String.mk (List.replicate (width - s.length) ' ') ++ s

/-- `AbstractMultiArray::indices_label`: the empty string for single
element arrays, otherwise the multi-dimensional index rendered inside
square brackets, each component formatted with `%Nd` where `N` is
`m_max_digits` (space padding), separated by `", "`. -/
def indices_label (shape : List Nat) (flat : Nat) : String :=
  if number_of_elements shape = 1 then ""
  else
    "[" ++
      String.intercalate ", "
        ((multi_dimensional_index (compute_strides shape) flat).map
          (fun v => padLeftSpaces (max_digits shape) (toString v))) ++
    "]"

/-- Left-pad a string with zeros up to the given width. -/
def padLeftZeros (width : Nat) (s : String) : String :=
  String.mk (List.replicate (width - s.length) '0') ++ s

/-- The element label the specification describes: like `indices_label`
but with each index zero-padded to the fixed width.  This definition
follows the specification text ("fixed-width zero-padded indices"), to
be compared with `indices_label`, which follows the source. -/
def zero_padded_indices_label (shape : List Nat) (flat : Nat) : String :=
  if number_of_elements shape = 1 then ""
  else
    "[" ++
      String.intercalate ", "
        ((multi_dimensional_index (compute_strides shape) flat).map
          (fun v => padLeftZeros (max_digits shape) (toString v))) ++
    "]"

/-- Modelled from the spec: the per-element effect of
`Model::setup_unique_name` (model.h is not among the sources; the
behaviour is fixed by the specification's naming convention and the test
`TestModel.setup_unique_name`): an element whose name was overridden by
the user keeps that name, every other element gets the proxy's base name
followed by its `indices_label`. -/
def setup_unique_name_entry (userName : Option String) (base : String)
    (shape : List Nat) (flat : Nat) : String :=
  match userName with
  | some s => s
  | none => base ++ indices_label shape flat

/-! ## Memory (src/printemps/solver/memory.h) -/

/-- `MemoryConstant::INITIAL_LAST_UPDATE_ITERATION`. -/
def INITIAL_LAST_UPDATE_ITERATION : Int := -1000

/-- The `Memory` state: per-variable last-update iterations and update
counts, organised per variable proxy, plus the total update counter.
Update counts are embedded as `Nat` (they start at `0` and are only
incremented). -/
structure Memory where
  last_update_iterations : List (List Int)
  update_counts : List (List Nat)
  total_update_counts : Nat
deriving DecidableEq

/-- Read entry `(p, f)` of a proxy-indexed table. -/
def getAt (xss : List (List α)) (p f : Nat) (d : α) : α :=
  (xss.getD p []).getD f d

/-- Write entry `(p, f)` of a proxy-indexed table. -/
def setAt (xss : List (List α)) (p f : Nat) (v : α) : List (List α) :=
  xss.set p ((xss.getD p []).set f v)

/-- `Memory::setup`: last-update iterations are initialised to the
sentinel, update counts to `0`, the total count to `0`; the tables have
one entry per variable of each proxy. -/
def memorySetup (proxySizes : List Nat) : Memory :=
  { last_update_iterations :=
      proxySizes.map (fun k => List.replicate k INITIAL_LAST_UPDATE_ITERATION)
    update_counts := proxySizes.map (fun k => List.replicate k 0)
    total_update_counts := 0 }

/-- `Memory::update(move, iteration)`: for each alteration, identified
here by the altered variable's `(proxy_index, flat_index)` pair, set the
last-update iteration to the given iteration, increment the variable's
update count and the total update count. -/
def Memory.update (m : Memory) (alterations : List (Nat × Nat)) (iteration : Int) :
    Memory :=
  alterations.foldl
    (fun mm a =>
      { last_update_iterations := setAt mm.last_update_iterations a.1 a.2 iteration
        update_counts :=
          setAt mm.update_counts a.1 a.2 (getAt mm.update_counts a.1 a.2 0 + 1)
        total_update_counts := mm.total_update_counts + 1 })
    m

/-- `Memory::bias`: the nested accumulation of
`frequency * frequency` over every proxy and element, where
`frequency = update_count / total_update_counts`. -/
def Memory.bias (m : Memory) : ℚ :=
  (m.update_counts.map
    (fun proxy =>
      (proxy.map
        (fun (c : Nat) =>
          ((c : ℚ) / (m.total_update_counts : ℚ)) *
            ((c : ℚ) / (m.total_update_counts : ℚ)))).sum)).sum

/-! ## SolutionScore and the incumbent holder (incumbent_holder.h) -/

/-- `model::SolutionScore` (section 3 of the specification): the value
object produced by `Model::evaluate`. -/
structure SolutionScore where
  objective : ℚ
  total_violation : ℚ
  local_penalty : ℚ
  global_penalty : ℚ
  local_augmented_objective : ℚ
  global_augmented_objective : ℚ
  is_feasible : Bool
  is_objective_improvable : Bool
  is_constraint_improvable : Bool
deriving DecidableEq

/-- A concrete feasible score with zero penalties, used as sample input
by the witnesses below. -/
def sampleScore (v : ℚ) : SolutionScore :=
  { objective := v
    total_violation := 0
    local_penalty := 0
    global_penalty := 0
    local_augmented_objective := v
    global_augmented_objective := v
    is_feasible := true
    is_objective_improvable := false
    is_constraint_improvable := false }

/-- `IncumbentHolderConstant::STATUS_LOCAL_AUGMENTED_INCUMBENT_UPDATE`. -/
def STATUS_LOCAL_AUGMENTED_INCUMBENT_UPDATE : Nat := 1

/-- `IncumbentHolderConstant::STATUS_GLOBAL_AUGMENTED_INCUMBENT_UPDATE`. -/
def STATUS_GLOBAL_AUGMENTED_INCUMBENT_UPDATE : Nat := 2

/-- `IncumbentHolderConstant::STATUS_FEASIBLE_INCUMBENT_UPDATE`. -/
def STATUS_FEASIBLE_INCUMBENT_UPDATE : Nat := 4

/-- The `IncumbentHolder` state.  The objective sentinels start at
`HUGE_VALF`, embedded as `⊤` of `WithTop ℚ`; solutions and scores start
default-constructed, embedded as `none`.  `α` is the solution type. -/
structure IncumbentHolder (α : Type) where
  found_feasible_solution : Bool
  local_augmented_incumbent_solution : Option α
  global_augmented_incumbent_solution : Option α
  feasible_incumbent_solution : Option α
  local_augmented_incumbent_objective : WithTop ℚ
  global_augmented_incumbent_objective : WithTop ℚ
  feasible_incumbent_objective : WithTop ℚ
  local_augmented_incumbent_score : Option SolutionScore
  global_augmented_incumbent_score : Option SolutionScore
  feasible_incumbent_score : Option SolutionScore

/-- `IncumbentHolder::initialize`. -/
def initHolder (α : Type) : IncumbentHolder α :=
  { found_feasible_solution := false
    local_augmented_incumbent_solution := none
    global_augmented_incumbent_solution := none
    feasible_incumbent_solution := none
    local_augmented_incumbent_objective := ⊤
    global_augmented_incumbent_objective := ⊤
    feasible_incumbent_objective := ⊤
    local_augmented_incumbent_score := none
    global_augmented_incumbent_score := none
    feasible_incumbent_score := none }

/-- `IncumbentHolder::try_update_incumbent(solution, score)`: the three
sequential comparisons of the source, accumulating the status bits. -/
def tryUpdate {α : Type} (h0 : IncumbentHolder α) (sol : α) (sc : SolutionScore) :
    Nat × IncumbentHolder α :=
  let updL : Prop :=
    (sc.local_augmented_objective : WithTop ℚ) < h0.local_augmented_incumbent_objective
  let h1 :=
    if updL then
      { h0 with
        local_augmented_incumbent_solution := some sol
        local_augmented_incumbent_score := some sc
        local_augmented_incumbent_objective := (sc.local_augmented_objective : WithTop ℚ) }
    else h0
  let updG : Prop :=
    (sc.global_augmented_objective : WithTop ℚ) < h0.global_augmented_incumbent_objective
  let h2 :=
    if updG then
      { h1 with
        global_augmented_incumbent_solution := some sol
        global_augmented_incumbent_score := some sc
        global_augmented_incumbent_objective := (sc.global_augmented_objective : WithTop ℚ) }
    else h1
  let updF : Prop :=
    sc.is_feasible = true ∧ (sc.objective : WithTop ℚ) < h0.feasible_incumbent_objective
  let h3 := if sc.is_feasible then { h2 with found_feasible_solution := true } else h2
  let h4 :=
    if updF then
      { h3 with
        feasible_incumbent_solution := some sol
        feasible_incumbent_score := some sc
        feasible_incumbent_objective := (sc.objective : WithTop ℚ) }
    else h3
  ((if updL then STATUS_LOCAL_AUGMENTED_INCUMBENT_UPDATE else 0) +
      (if updG then STATUS_GLOBAL_AUGMENTED_INCUMBENT_UPDATE else 0) +
      (if updF then STATUS_FEASIBLE_INCUMBENT_UPDATE else 0),
    h4)

/-- Present a sequence of (solution, score) pairs to an incumbent
holder, in order. -/
def runHolder {α : Type} (h : IncumbentHolder α) (events : List (α × SolutionScore)) :
    IncumbentHolder α :=
  events.foldl (fun hh e => (tryUpdate hh e.1 e.2).2) h

/-- The solution the outer loop exports on termination
(solver.h, lines 1028-1031): the feasible incumbent when a feasible
solution was found, the global augmented incumbent otherwise. -/
def exportedIncumbent {α : Type} (h : IncumbentHolder α) : Option α :=
  if h.found_feasible_solution then h.feasible_incumbent_solution
  else h.global_augmented_incumbent_solution

/-! ## Solve guard (solver.h, lines 40-46) -/

/-- The error kinds of the solve entry check. -/
inductive SolveError where
  | AlreadySolved
deriving DecidableEq

/-- The part of the model state the solve guard reads and writes. -/
structure SolverModel where
  is_solved : Bool
deriving DecidableEq

/-- The entry of `solver::solve`: a model that is already solved raises
`AlreadySolved`; otherwise the model is marked solved first, and only
then does the search (abstracted as `search`, which receives the marked
model) run. -/
def solveEntry {β : Type} (m : SolverModel) (search : SolverModel → β) :
    Except SolveError (SolverModel × β) :=
  if m.is_solved then Except.error SolveError.AlreadySolved
  else
    let marked : SolverModel := { is_solved := true }
    Except.ok (marked, search marked)

/-! ## Outer loop stagnation counter and penalty update (solver.h) -/

/-- Modelled from the spec: `constant::EPSILON` (constant.h is not among
the sources); a small positive tolerance.  Only its positivity matters
below. -/
def EPSILON : ℚ := { num := 1, den := 10000000, den_nz := by decide, reduced := Nat.coprime_one_left _ }

/-- The update of `not_update_count` and
`penalty_coefficient_reset_flag` after one tabu-search loop
(solver.h, lines 583-596).  The source condition is
`update_status && STATUS_GLOBAL_AUGMENTED_INCUMBENT_UPDATE` with the
C++ logical AND, so it holds exactly when `update_status` is non-zero
(the right operand is the non-zero constant `2`); the embedding keeps
that conjunction verbatim. -/
def notUpdateCountStep (update_status threshold count : Nat) : Nat × Bool :=
  if update_status ≠ 0 ∧ STATUS_GLOBAL_AUGMENTED_INCUMBENT_UPDATE ≠ 0 then (0, false)
  else if count + 1 = threshold then (0, true)
  else (count + 1, false)

/-- `utility::max` over a vector of doubles. -/
def qListMax (l : List ℚ) : ℚ := l.foldl max (l.headD 0)

/-- The update of the local penalty coefficients after one tabu-search
loop (solver.h, lines 620-709).  `violations` are the violation values
of the local augmented incumbent solution, organised per constraint
proxy in the same layout as the coefficient tables; the source looks the
violation proxy up by the coefficient proxy's id, which equals its
position. -/
def updatePenaltyCoefficients
    (resetFlag : Bool) (gap : ℚ) (localIsFeasible : Bool)
    (violations : List (List ℚ))
    (localCoefs globalCoefs : List (List ℚ))
    (tightening_rate relaxing_rate balance initial_penalty_coefficient : ℚ)
    (grouping : Bool) : List (List ℚ) :=
  if resetFlag then globalCoefs
  else if EPSILON < gap ∧ localIsFeasible = false then
    let total_penalty := (violations.map List.sum).sum
    let total_squared_violation :=
      (violations.map (fun proxy => (proxy.map (fun v => v * v)).sum)).sum
    List.zipWith
      (fun proxy vio =>
        let stepped :=
          List.zipWith
            (fun e v =>
              e + tightening_rate *
                (balance * (max 0 gap / total_penalty) +
                  (1 - balance) * (max 0 gap / total_squared_violation * v)))
            proxy vio
        let grouped :=
          if grouping then stepped.map (fun _ => qListMax stepped) else stepped
        grouped.map (fun e => min e initial_penalty_coefficient))
      localCoefs violations
  else
    List.zipWith
      (fun proxy vio =>
        List.zipWith (fun e v => if v < EPSILON then e * relaxing_rate else e) proxy vio)
      localCoefs violations

/-! ## Incremental evaluation (Model::evaluate; modelled from the spec) -/

/-- A sparse linear form, embedded densely: coefficient `i` multiplies
variable `i`.  Modelled from the spec (section 3, Expression). -/
structure LinExpr where
  coeffs : List ℚ
  const : ℚ

/-- Value of a linear expression at an assignment. -/
def LinExpr.eval (e : LinExpr) (x : List ℚ) : ℚ :=
  (List.zipWith (fun c v => c * v) e.coeffs x).sum + e.const

/-- Coefficient of variable `i` (zero when absent). -/
def LinExpr.coeffAt (e : LinExpr) (i : Nat) : ℚ := e.coeffs.getD i 0

/-- Constraint senses. -/
inductive Sense where
  | le
  | eq
  | ge
deriving DecidableEq

/-- Violation of a constraint value under a sense (section 3,
Constraint): `max(0, value)` for `≤`, `|value|` for `=`,
`max(0, -value)` for `≥`. -/
def violationOf : Sense → ℚ → ℚ
  | Sense.le, v => max 0 v
  | Sense.eq, v => |v|
  | Sense.ge, v => max 0 (-v)

/-- A constraint: a linear expression with a sense. -/
structure Constr where
  expr : LinExpr
  sense : Sense

/-- Violation of a constraint at an assignment. -/
def Constr.violation (c : Constr) (x : List ℚ) : ℚ :=
  violationOf c.sense (c.expr.eval x)

/-- The part of the model `evaluate` reads: the objective expression and
the constraints (sign-normalised to minimisation). -/
structure ModelE where
  objective : LinExpr
  constraints : List Constr

/-- The default constraint used for out-of-range lookups. -/
def defaultConstr : Constr := { expr := { coeffs := [], const := 0 }, sense := Sense.le }

/-- Constraint `g` of a model. -/
def ModelE.constr (M : ModelE) (g : Nat) : Constr := M.constraints.getD g defaultConstr

/-- A move: alterations `(variable index, new value)` plus the set of
related constraints (the source keeps an `unordered_set` of constraint
pointers; it is embedded as a `Finset` of constraint indices). -/
structure MoveE where
  alterations : List (Nat × ℚ)
  related : Finset Nat

/-- The empty move `{}`. -/
def emptyMove : MoveE := { alterations := [], related := ∅ }

/-- Apply a move's alterations to an assignment. -/
def applyMove (x : List ℚ) (alterations : List (Nat × ℚ)) : List ℚ :=
  alterations.foldl (fun xs a => xs.set a.1 a.2) x

/-- The first-order change `Σ (new − old) · coefficient` a move causes
on a linear expression (section 4.3). -/
def moveDelta (e : LinExpr) (x : List ℚ) (alterations : List (Nat × ℚ)) : ℚ :=
  (alterations.map (fun a => (a.2 - x.getD a.1 0) * e.coeffAt a.1)).sum

/-- Modelled from the spec: the full overload
`Model::evaluate(move, local_weights, global_weights)` (model.h is not
among the sources).  It scores the post-move assignment from scratch:
objective and every constraint violation are freshly recomputed (by the
value-parity invariants, section 8, this is the value the cached
incremental path must produce), the penalties are the weighted violation
sums, the augmented objectives are objective plus penalty, and
feasibility is zero total violation.  The spec gives no formula for the
two improvability flags; they are modelled by the supplied functions of
the post-move assignment, which both overloads share. -/
def evaluateFull (M : ModelE) (mv : MoveE) (lw gw : List ℚ) (x : List ℚ)
    (objImp conImp : List ℚ → Bool) : SolutionScore :=
  let newX := applyMove x mv.alterations
  let tv := ∑ g ∈ Finset.range M.constraints.length, (M.constr g).violation newX
  let lp := ∑ g ∈ Finset.range M.constraints.length,
    lw.getD g 0 * (M.constr g).violation newX
  let gp := ∑ g ∈ Finset.range M.constraints.length,
    gw.getD g 0 * (M.constr g).violation newX
  let ob := M.objective.eval newX
  { objective := ob
    total_violation := tv
    local_penalty := lp
    global_penalty := gp
    local_augmented_objective := ob + lp
    global_augmented_objective := ob + gp
    is_feasible := decide (tv = 0)
    is_objective_improvable := objImp newX
    is_constraint_improvable := conImp newX }

/-- Modelled from the spec: the delta overload
`Model::evaluate(move, score_before, local_weights, global_weights)`
(model.h is not among the sources; section 4.3).  Starting from
`score_before`, the objective is updated by the move's first-order
change, and only the constraints in `move.related` contribute violation
differences, computed from the cached pre-move constraint values (equal,
by the value-parity invariant, to evaluation at `x`).  The improvability
flags are the shared functions of the post-move assignment. -/
def evaluateDiff (M : ModelE) (mv : MoveE) (before : SolutionScore)
    (lw gw : List ℚ) (x : List ℚ) (objImp conImp : List ℚ → Bool) : SolutionScore :=
  let newX := applyMove x mv.alterations
  let oldViol : Nat → ℚ := fun g => (M.constr g).violation x
  let newViol : Nat → ℚ := fun g =>
    violationOf (M.constr g).sense ((M.constr g).expr.eval x + moveDelta (M.constr g).expr x mv.alterations)
  let ob := before.objective + moveDelta M.objective x mv.alterations
  let tv := before.total_violation + ∑ g ∈ mv.related, (newViol g - oldViol g)
  let lp := before.local_penalty + ∑ g ∈ mv.related, lw.getD g 0 * (newViol g - oldViol g)
  let gp := before.global_penalty + ∑ g ∈ mv.related, gw.getD g 0 * (newViol g - oldViol g)
  { objective := ob
    total_violation := tv
    local_penalty := lp
    global_penalty := gp
    local_augmented_objective := ob + lp
    global_augmented_objective := ob + gp
    is_feasible := decide (tv = 0)
    is_objective_improvable := objImp newX
    is_constraint_improvable := conImp newX }

/-! ## List access helpers -/

theorem getD_set_self {α : Type} {l : List α} {i : Nat} (h : i < l.length) (v d : α) :
    (l.set i v).getD i d = v := by
  simp [List.getElem?_set_self h]

theorem getD_set_ne {α : Type} {l : List α} {i j : Nat} (h : i ≠ j) (v d : α) :
    (l.set i v).getD j d = l.getD j d := by
  simp [List.getElem?_set_ne h]

theorem getD_zipWith {α β γ : Type} (f : α → β → γ) :
    ∀ (l1 : List α) (l2 : List β) (i : Nat), i < l1.length → i < l2.length →
      ∀ (d : γ) (d1 : α) (d2 : β),
        (List.zipWith f l1 l2).getD i d = f (l1.getD i d1) (l2.getD i d2) := by
  intro l1
  induction l1 with
  | nil => intro l2 i h1 h2 d d1 d2; simp at h1
  | cons a t ih =>
    intro l2 i h1 h2 d d1 d2
    cases l2 with
    | nil => simp at h2
    | cons b t2 =>
      cases i with
      | zero => simp [List.zipWith]
      | succ n =>
        simp only [List.zipWith, List.getD_cons_succ]
        exact ih t2 n (by simpa using h1) (by simpa using h2) d d1 d2

theorem getD_map_of_lt {α β : Type} (f : α → β) (l : List α) (i : Nat) (h : i < l.length)
    (d : β) (d1 : α) : (l.map f).getD i d = f (l.getD i d1) := by
  simp [List.getElem?_map, List.getElem?_eq_getElem h]

/-! ## C9: flat/multi-dimensional index round trip -/

/-- C9, auxiliary: the round trip and the component bounds, by induction
on the shape. -/
theorem flat_multi_roundtrip :
    ∀ (shape : List Nat), (∀ d ∈ shape, 0 < d) → ∀ k, k < shape.prod →
      flat_index (compute_strides shape) (multi_dimensional_index (compute_strides shape) k) = k ∧
      List.Forall₂ (fun d s => d < s) (multi_dimensional_index (compute_strides shape) k) shape := by
  intro shape
  induction shape with
  | nil =>
    intro _ k hk
    simp only [List.prod_nil, Nat.lt_one_iff] at hk
    subst hk
    exact ⟨rfl, List.Forall₂.nil⟩
  | cons s rest ih =>
    intro hpos k hk
    have hs : 0 < s := hpos s (List.mem_cons_self s rest)
    have hrest : ∀ d ∈ rest, 0 < d := fun d hd => hpos d (List.mem_cons_of_mem _ hd)
    have hP : 0 < rest.prod := List.prod_pos hrest
    have hk' : k % rest.prod < rest.prod := Nat.mod_lt _ hP
    obtain ⟨ihflat, ihlt⟩ := ih hrest (k % rest.prod) hk'
    have hq : k / rest.prod < s := by
      rw [Nat.div_lt_iff_lt_mul hP]
      simpa using hk
    have hmulti : multi_dimensional_index (compute_strides (s :: rest)) k
        = k / rest.prod :: multi_dimensional_index (compute_strides rest) (k % rest.prod) := by
      simp [compute_strides, multi_dimensional_index]
    constructor
    · have hflat : flat_index (compute_strides (s :: rest))
          (multi_dimensional_index (compute_strides (s :: rest)) k)
          = k / rest.prod * rest.prod +
            flat_index (compute_strides rest)
              (multi_dimensional_index (compute_strides rest) (k % rest.prod)) := by
        rw [hmulti]
        simp [compute_strides, flat_index]
      rw [hflat, ihflat, Nat.mul_comm, Nat.div_add_mod]
    · rw [hmulti]
      exact List.Forall₂.cons hq ihlt

/-- C9: for every `AbstractMultiArray` whose shape entries are all
positive and every flat index `k` below `number_of_elements`,
`flat_index (multi_dimensional_index k) = k`, and every component of
`multi_dimensional_index k` is (non-negative and) strictly below the
corresponding shape entry. -/
theorem C9_flat_index_roundtrip (shape : List Nat) (hpos : ∀ d ∈ shape, 0 < d)
    (k : Nat) (hk : k < number_of_elements shape) :
    flat_index (compute_strides shape) (multi_dimensional_index (compute_strides shape) k) = k ∧
    List.Forall₂ (fun d s => d < s) (multi_dimensional_index (compute_strides shape) k) shape :=
  flat_multi_roundtrip shape hpos k hk

/-- C9, witness: the shape `[20, 30]` of the repository's unique-name
test at flat index `123` (multi-dimensional index `(4, 3)`). -/
theorem C9_flat_index_roundtrip_witness :
    ((∀ d ∈ [20, 30], 0 < d) ∧ 123 < number_of_elements [20, 30]) ∧
    (flat_index (compute_strides [20, 30])
        (multi_dimensional_index (compute_strides [20, 30]) 123) = 123 ∧
      List.Forall₂ (fun d s => d < s)
        (multi_dimensional_index (compute_strides [20, 30]) 123) [20, 30]) :=
  ⟨⟨by decide, by decide⟩, C9_flat_index_roundtrip [20, 30] (by decide) 123 (by decide)⟩

/-! ## C10: Memory.update frame effect -/

/-- Entry `(p, f)` lookups survive a `setAt` at a different position. -/
theorem getAt_setAt_ne {α : Type} (xss : List (List α)) {p f q g : Nat}
    (hne : ¬(p = q ∧ f = g)) (v d : α) :
    getAt (setAt xss p f v) q g d = getAt xss q g d := by
  unfold getAt setAt
  by_cases hpq : p = q
  · subst hpq
    have hfg : f ≠ g := fun hfg => hne ⟨rfl, hfg⟩
    by_cases hp : p < xss.length
    · rw [getD_set_self hp, getD_set_ne hfg]
    · rw [List.set_eq_of_length_le (Nat.le_of_not_lt hp)]
  · rw [getD_set_ne hpq]

/-- Entry `(p, f)` after a `setAt` at `(p, f)` (in range). -/
theorem getAt_setAt_self {α : Type} (xss : List (List α)) {p f : Nat}
    (hp : p < xss.length) (hf : f < (xss.getD p []).length) (v d : α) :
    getAt (setAt xss p f v) p f d = v := by
  unfold getAt setAt
  rw [getD_set_self hp, getD_set_self hf]

/-- `setAt` preserves the outer length. -/
theorem length_setAt {α : Type} (xss : List (List α)) (p f : Nat) (v : α) :
    (setAt xss p f v).length = xss.length := List.length_set ..

/-- `setAt` preserves every inner length. -/
theorem length_getD_setAt {α : Type} (xss : List (List α)) (p f q : Nat) (v : α) :
    ((setAt xss p f v).getD q []).length = (xss.getD q []).length := by
  unfold setAt
  by_cases hpq : p = q
  · subst hpq
    by_cases hp : p < xss.length
    · rw [getD_set_self hp, List.length_set]
    · rw [List.set_eq_of_length_le (Nat.le_of_not_lt hp)]
  · rw [getD_set_ne hpq]

/-- C10: `Memory.update(move, iteration)` sets the last-update iteration
to `iteration` and increments the update count by one exactly for the
variables `(p, f)` altered by the move, increments the total update
count by the number of alterations, and leaves every other variable's
entries unchanged. -/
theorem C10_memory_update_frame (alterations : List (Nat × Nat)) :
    ∀ (m : Memory) (iteration : Int),
      alterations.Nodup →
      (∀ a ∈ alterations, a.1 < m.last_update_iterations.length ∧
        a.2 < (m.last_update_iterations.getD a.1 []).length) →
      (∀ a ∈ alterations, a.1 < m.update_counts.length ∧
        a.2 < (m.update_counts.getD a.1 []).length) →
      (∀ a ∈ alterations,
        getAt (m.update alterations iteration).last_update_iterations a.1 a.2 0 = iteration ∧
        getAt (m.update alterations iteration).update_counts a.1 a.2 0 =
          getAt m.update_counts a.1 a.2 0 + 1) ∧
      (∀ p f, (p, f) ∉ alterations →
        getAt (m.update alterations iteration).last_update_iterations p f 0 =
          getAt m.last_update_iterations p f 0 ∧
        getAt (m.update alterations iteration).update_counts p f 0 =
          getAt m.update_counts p f 0) ∧
      (m.update alterations iteration).total_update_counts =
        m.total_update_counts + alterations.length := by
  induction alterations with
  | nil =>
    intro m iteration _ _ _
    exact ⟨fun a ha => absurd ha (List.not_mem_nil a), fun p f _ => ⟨rfl, rfl⟩, rfl⟩
  | cons a t ih =>
    intro m iteration hnodup hrL hrC
    -- the state after processing the head alteration
    have hstep : m.update (a :: t) iteration =
        Memory.update
          { last_update_iterations := setAt m.last_update_iterations a.1 a.2 iteration
            update_counts := setAt m.update_counts a.1 a.2 (getAt m.update_counts a.1 a.2 0 + 1)
            total_update_counts := m.total_update_counts + 1 }
          t iteration := rfl
    have hheadnot : a ∉ t := (List.nodup_cons.mp hnodup).1
    have hnodup' : t.Nodup := (List.nodup_cons.mp hnodup).2
    have hrLa := hrL a (List.mem_cons_self a t)
    have hrCa := hrC a (List.mem_cons_self a t)
    have hrL' : ∀ b ∈ t, b.1 < (setAt m.last_update_iterations a.1 a.2 iteration).length ∧
        b.2 < ((setAt m.last_update_iterations a.1 a.2 iteration).getD b.1 []).length := by
      intro b hb
      obtain ⟨h1, h2⟩ := hrL b (List.mem_cons_of_mem a hb)
      exact ⟨by rwa [length_setAt], by rwa [length_getD_setAt]⟩
    have hrC' : ∀ b ∈ t,
        b.1 < (setAt m.update_counts a.1 a.2 (getAt m.update_counts a.1 a.2 0 + 1)).length ∧
        b.2 < ((setAt m.update_counts a.1 a.2
          (getAt m.update_counts a.1 a.2 0 + 1)).getD b.1 []).length := by
      intro b hb
      obtain ⟨h1, h2⟩ := hrC b (List.mem_cons_of_mem a hb)
      exact ⟨by rwa [length_setAt], by rwa [length_getD_setAt]⟩
    obtain ⟨ih1, ih2, ih3⟩ :=
      ih { last_update_iterations := setAt m.last_update_iterations a.1 a.2 iteration
           update_counts := setAt m.update_counts a.1 a.2 (getAt m.update_counts a.1 a.2 0 + 1)
           total_update_counts := m.total_update_counts + 1 }
        iteration hnodup' hrL' hrC'
    refine ⟨?_, ?_, ?_⟩
    · intro b hb
      rcases List.mem_cons.mp hb with hba | hbt
      · subst hba
        have hbnot : (b.1, b.2) ∉ t := by simpa using hheadnot
        obtain ⟨f1, f2⟩ := ih2 b.1 b.2 hbnot
        rw [hstep]
        refine ⟨?_, ?_⟩
        · rw [f1]
          exact getAt_setAt_self _ hrLa.1 hrLa.2 _ _
        · rw [f2]
          simp only
          rw [getAt_setAt_self _ hrCa.1 hrCa.2]
      · obtain ⟨f1, f2⟩ := ih1 b hbt
        rw [hstep]
        refine ⟨f1, ?_⟩
        rw [f2]
        simp only
        have hneq : ¬(a.1 = b.1 ∧ a.2 = b.2) := by
          intro hab
          apply hheadnot
          have : a = b := Prod.ext hab.1 hab.2
          rwa [this]
        rw [getAt_setAt_ne _ hneq]
    · intro p f hpf
      have hpf' : (p, f) ∉ t := fun hmem => hpf (List.mem_cons_of_mem a hmem)
      obtain ⟨f1, f2⟩ := ih2 p f hpf'
      have hneq : ¬(a.1 = p ∧ a.2 = f) := by
        intro hap
        apply hpf
        have : a = (p, f) := Prod.ext hap.1 hap.2
        rw [← this]
        exact List.mem_cons_self a t
      rw [hstep]
      constructor
      · rw [f1]
        simp only
        rw [getAt_setAt_ne _ hneq]
      · rw [f2]
        simp only
        rw [getAt_setAt_ne _ hneq]
    · rw [hstep, ih3]
      simp only [List.length_cons]
      omega

/-- C10, witness: a two-proxy memory and a two-alteration move. -/
theorem C10_memory_update_frame_witness :
    ([((0 : Nat), (1 : Nat)), (1, 0)].Nodup ∧
      (∀ a ∈ [((0 : Nat), (1 : Nat)), (1, 0)],
        a.1 < (memorySetup [2, 1]).last_update_iterations.length ∧
        a.2 < ((memorySetup [2, 1]).last_update_iterations.getD a.1 []).length) ∧
      (∀ a ∈ [((0 : Nat), (1 : Nat)), (1, 0)],
        a.1 < (memorySetup [2, 1]).update_counts.length ∧
        a.2 < ((memorySetup [2, 1]).update_counts.getD a.1 []).length)) ∧
    ((∀ a ∈ [((0 : Nat), (1 : Nat)), (1, 0)],
        getAt ((memorySetup [2, 1]).update [(0, 1), (1, 0)] 7).last_update_iterations a.1 a.2 0 = 7 ∧
        getAt ((memorySetup [2, 1]).update [(0, 1), (1, 0)] 7).update_counts a.1 a.2 0 =
          getAt (memorySetup [2, 1]).update_counts a.1 a.2 0 + 1) ∧
      (∀ p f, (p, f) ∉ [((0 : Nat), (1 : Nat)), (1, 0)] →
        getAt ((memorySetup [2, 1]).update [(0, 1), (1, 0)] 7).last_update_iterations p f 0 =
          getAt (memorySetup [2, 1]).last_update_iterations p f 0 ∧
        getAt ((memorySetup [2, 1]).update [(0, 1), (1, 0)] 7).update_counts p f 0 =
          getAt (memorySetup [2, 1]).update_counts p f 0) ∧
      ((memorySetup [2, 1]).update [(0, 1), (1, 0)] 7).total_update_counts =
        (memorySetup [2, 1]).total_update_counts + [((0 : Nat), (1 : Nat)), (1, 0)].length) :=
  ⟨⟨by decide, by decide, by decide⟩,
    C10_memory_update_frame [(0, 1), (1, 0)] (memorySetup [2, 1]) 7
      (by decide) (by decide) (by decide)⟩

/-! ## C5: Memory.bias value and range -/

theorem sum_map_cast_div (l : List Nat) (T : ℚ) :
    (l.map (fun (c : Nat) => (c : ℚ) / T)).sum = ((l.sum : Nat) : ℚ) / T := by
  induction l with
  | nil => simp
  | cons a t ih =>
    simp only [List.map_cons, List.sum_cons, ih]
    push_cast
    rw [add_div]

theorem sum_map_mul_self_le_sq (l : List ℚ) (h : ∀ x ∈ l, 0 ≤ x) :
    (l.map (fun x => x * x)).sum ≤ l.sum * l.sum := by
  induction l with
  | nil => simp
  | cons a t ih =>
    have ha : 0 ≤ a := h a (List.mem_cons_self a t)
    have ht : ∀ x ∈ t, 0 ≤ x := fun x hx => h x (List.mem_cons_of_mem a hx)
    have hs : 0 ≤ t.sum := List.sum_nonneg ht
    have := ih ht
    simp only [List.map_cons, List.sum_cons]
    nlinarith [mul_nonneg ha hs]

theorem two_mul_sum_le_aux (l : List ℚ) (a : ℚ) :
    2 * a * l.sum ≤ (l.length : ℚ) * (a * a) + (l.map (fun x => x * x)).sum := by
  induction l with
  | nil => simp
  | cons b t ih =>
    simp only [List.map_cons, List.sum_cons, List.length_cons]
    push_cast
    nlinarith [sq_nonneg (a - b)]

theorem sq_sum_le_length_mul_sum_sq (l : List ℚ) :
    l.sum * l.sum ≤ (l.length : ℚ) * (l.map (fun x => x * x)).sum := by
  induction l with
  | nil => simp
  | cons a t ih =>
    have haux := two_mul_sum_le_aux t a
    simp only [List.map_cons, List.sum_cons, List.length_cons]
    push_cast
    nlinarith [List.sum_nonneg (l := t.map (fun x => x * x))
      (fun x hx => by
        obtain ⟨y, _, hy⟩ := List.mem_map.mp hx
        rw [← hy]; exact mul_self_nonneg y)]

/-- The nested bias accumulation equals the sum over the flattened
variable list. -/
theorem bias_eq_flatten_sum (m : Memory) :
    m.bias = ((m.update_counts.flatten).map
      (fun (c : Nat) => ((c : ℚ) / (m.total_update_counts : ℚ)) *
        ((c : ℚ) / (m.total_update_counts : ℚ)))).sum := by
  unfold Memory.bias
  rw [List.map_flatten, List.sum_flatten, List.map_map]
  rfl

/-- C5, counterexample: a memory reached from `setup` by a single
two-alteration update has counts `(1, 1)`, total `2`, hence
`bias = 1/2 = 1/n` with `n = 2`: the bias attains `1/n`, so it does not
lie in the open-below interval `(1/n, 1]` the claim states. -/
theorem C5_counterexample_bias_attains_lower_bound :
    ((((memorySetup [2]).update [(0, 0), (0, 1)] 0).update_counts.flatten).length = 2) ∧
    ((memorySetup [2]).update [(0, 0), (0, 1)] 0).bias = 1 / 2 ∧
    ¬(1 / (((((memorySetup [2]).update [(0, 0), (0, 1)] 0).update_counts.flatten).length : Nat) : ℚ)
        < ((memorySetup [2]).update [(0, 0), (0, 1)] 0).bias) := by
  have hmem : (memorySetup [2]).update [(0, 0), (0, 1)] 0 =
      { last_update_iterations := [[0, 0]]
        update_counts := [[1, 1]]
        total_update_counts := 2 } := by decide
  rw [hmem]
  refine ⟨by decide, ?_, ?_⟩
  · simp [Memory.bias]
    norm_num
  · simp [Memory.bias]
    norm_num

/-- C5, amended: for a memory state whose total update count is the sum
of the per-variable counts (the invariant `Memory.update` maintains) and
positive, `bias` equals the sum over all `n` variables of
`(update_count / total)²`, and lies in the closed-below interval
`[1/n, 1]` (the lower end is attained, for instance by uniform counts,
so the claimed open interval `(1/n, 1]` is corrected to `[1/n, 1]`). -/
theorem C5_bias_amended (m : Memory)
    (hsum : (m.update_counts.flatten).sum = m.total_update_counts)
    (hpos : 0 < m.total_update_counts) :
    m.bias = ((m.update_counts.flatten).map
        (fun (c : Nat) => ((c : ℚ) / (m.total_update_counts : ℚ)) ^ 2)).sum ∧
    1 / (((m.update_counts.flatten).length : Nat) : ℚ) ≤ m.bias ∧
    m.bias ≤ 1 := by
  have hT0 : (0 : ℚ) < (m.total_update_counts : ℚ) := by
    exact_mod_cast hpos
  have hflat : m.bias = (((m.update_counts.flatten).map
      (fun (c : Nat) => (c : ℚ) / (m.total_update_counts : ℚ))).map (fun x => x * x)).sum := by
    rw [bias_eq_flatten_sum, List.map_map]
    rfl
  have hsum1 : ((m.update_counts.flatten).map
      (fun (c : Nat) => (c : ℚ) / (m.total_update_counts : ℚ))).sum = 1 := by
    rw [sum_map_cast_div, hsum, div_self (ne_of_gt hT0)]
  have hnn : ∀ x ∈ (m.update_counts.flatten).map
      (fun (c : Nat) => (c : ℚ) / (m.total_update_counts : ℚ)), 0 ≤ x := by
    intro x hx
    obtain ⟨c, _, hc⟩ := List.mem_map.mp hx
    rw [← hc]
    exact div_nonneg (Nat.cast_nonneg c) (le_of_lt hT0)
  refine ⟨?_, ?_, ?_⟩
  · rw [hflat, List.map_map]
    have hfn : ((fun x => x * x) ∘ fun (c : Nat) => (c : ℚ) / (m.total_update_counts : ℚ)) =
        (fun (c : Nat) => ((c : ℚ) / (m.total_update_counts : ℚ)) ^ 2) := by
      funext c
      simp [Function.comp, pow_two]
    rw [hfn]
  · have hne : (m.update_counts.flatten) ≠ [] := by
      intro hnil
      rw [hnil] at hsum
      simp at hsum
      omega
    have hlen : (0 : ℚ) < ((m.update_counts.flatten).length : ℚ) := by
      have : 0 < (m.update_counts.flatten).length := List.length_pos.mpr hne
      exact_mod_cast this
    have hcs := sq_sum_le_length_mul_sum_sq
      ((m.update_counts.flatten).map (fun (c : Nat) => (c : ℚ) / (m.total_update_counts : ℚ)))
    rw [hsum1, List.length_map] at hcs
    rw [hflat, div_le_iff₀ hlen]
    calc (1 : ℚ) = 1 * 1 := (one_mul 1).symm
      _ ≤ _ := hcs.trans_eq (mul_comm _ _)
  · have hub := sum_map_mul_self_le_sq
      ((m.update_counts.flatten).map (fun (c : Nat) => (c : ℚ) / (m.total_update_counts : ℚ))) hnn
    rw [hsum1] at hub
    rw [hflat]
    simpa using hub

/-- C5, witness for the amended bias theorem: the single-variable memory
after one update (`bias = 1`, `n = 1`). -/
theorem C5_bias_amended_witness :
    (((((memorySetup [1]).update [(0, 0)] 3).update_counts.flatten).sum =
        ((memorySetup [1]).update [(0, 0)] 3).total_update_counts) ∧
      0 < ((memorySetup [1]).update [(0, 0)] 3).total_update_counts) ∧
    (((memorySetup [1]).update [(0, 0)] 3).bias =
        ((((memorySetup [1]).update [(0, 0)] 3).update_counts.flatten).map
          (fun (c : Nat) => ((c : ℚ) /
            (((memorySetup [1]).update [(0, 0)] 3).total_update_counts : ℚ)) ^ 2)).sum ∧
      1 / ((((((memorySetup [1]).update [(0, 0)] 3).update_counts.flatten).length : Nat)) : ℚ) ≤
        ((memorySetup [1]).update [(0, 0)] 3).bias ∧
      ((memorySetup [1]).update [(0, 0)] 3).bias ≤ 1) :=
  ⟨⟨by decide, by decide⟩,
    C5_bias_amended ((memorySetup [1]).update [(0, 0)] 3) (by decide) (by decide)⟩

/-! ## C6 and C7: the incumbent holder -/

/-- Closed form of `tryUpdate`: each field and the status bits as
conditionals on the three comparisons of the source. -/
theorem tryUpdate_eq {α : Type} (h : IncumbentHolder α) (sol : α) (sc : SolutionScore) :
    tryUpdate h sol sc =
      ((if (sc.local_augmented_objective : WithTop ℚ) <
            h.local_augmented_incumbent_objective then
          STATUS_LOCAL_AUGMENTED_INCUMBENT_UPDATE else 0) +
        (if (sc.global_augmented_objective : WithTop ℚ) <
            h.global_augmented_incumbent_objective then
          STATUS_GLOBAL_AUGMENTED_INCUMBENT_UPDATE else 0) +
        (if sc.is_feasible = true ∧ (sc.objective : WithTop ℚ) <
            h.feasible_incumbent_objective then
          STATUS_FEASIBLE_INCUMBENT_UPDATE else 0),
      { found_feasible_solution :=
          if sc.is_feasible = true then true else h.found_feasible_solution
        local_augmented_incumbent_solution :=
          if (sc.local_augmented_objective : WithTop ℚ) <
              h.local_augmented_incumbent_objective then some sol
          else h.local_augmented_incumbent_solution
        global_augmented_incumbent_solution :=
          if (sc.global_augmented_objective : WithTop ℚ) <
              h.global_augmented_incumbent_objective then some sol
          else h.global_augmented_incumbent_solution
        feasible_incumbent_solution :=
          if sc.is_feasible = true ∧ (sc.objective : WithTop ℚ) <
              h.feasible_incumbent_objective then some sol
          else h.feasible_incumbent_solution
        local_augmented_incumbent_objective :=
          if (sc.local_augmented_objective : WithTop ℚ) <
              h.local_augmented_incumbent_objective then
            (sc.local_augmented_objective : WithTop ℚ)
          else h.local_augmented_incumbent_objective
        global_augmented_incumbent_objective :=
          if (sc.global_augmented_objective : WithTop ℚ) <
              h.global_augmented_incumbent_objective then
            (sc.global_augmented_objective : WithTop ℚ)
          else h.global_augmented_incumbent_objective
        feasible_incumbent_objective :=
          if sc.is_feasible = true ∧ (sc.objective : WithTop ℚ) <
              h.feasible_incumbent_objective then (sc.objective : WithTop ℚ)
          else h.feasible_incumbent_objective
        local_augmented_incumbent_score :=
          if (sc.local_augmented_objective : WithTop ℚ) <
              h.local_augmented_incumbent_objective then some sc
          else h.local_augmented_incumbent_score
        global_augmented_incumbent_score :=
          if (sc.global_augmented_objective : WithTop ℚ) <
              h.global_augmented_incumbent_objective then some sc
          else h.global_augmented_incumbent_score
        feasible_incumbent_score :=
          if sc.is_feasible = true ∧ (sc.objective : WithTop ℚ) <
              h.feasible_incumbent_objective then some sc
          else h.feasible_incumbent_score }) := by
  simp only [tryUpdate]
  split_ifs <;> simp_all

/-- One `tryUpdate` never increases the stored global augmented
incumbent objective. -/
theorem tryUpdate_global_le {α : Type} (h : IncumbentHolder α) (sol : α) (sc : SolutionScore) :
    (tryUpdate h sol sc).2.global_augmented_incumbent_objective ≤
      h.global_augmented_incumbent_objective := by
  rw [tryUpdate_eq]
  dsimp only
  split_ifs with hg
  · exact le_of_lt hg
  · exact le_refl _

/-- One `tryUpdate` never increases the stored feasible incumbent
objective. -/
theorem tryUpdate_feasible_le {α : Type} (h : IncumbentHolder α) (sol : α) (sc : SolutionScore) :
    (tryUpdate h sol sc).2.feasible_incumbent_objective ≤
      h.feasible_incumbent_objective := by
  rw [tryUpdate_eq]
  dsimp only
  split_ifs with hg
  · exact le_of_lt hg.2
  · exact le_refl _

/-- A run of `tryUpdate` calls never increases the stored global
augmented incumbent objective. -/
theorem runHolder_global_le {α : Type} (events : List (α × SolutionScore)) :
    ∀ h : IncumbentHolder α,
      (runHolder h events).global_augmented_incumbent_objective ≤
        h.global_augmented_incumbent_objective := by
  induction events with
  | nil => intro h; exact le_refl _
  | cons e t ih =>
    intro h
    exact le_trans (ih (tryUpdate h e.1 e.2).2) (tryUpdate_global_le h e.1 e.2)

/-- A run of `tryUpdate` calls never increases the stored feasible
incumbent objective. -/
theorem runHolder_feasible_le {α : Type} (events : List (α × SolutionScore)) :
    ∀ h : IncumbentHolder α,
      (runHolder h events).feasible_incumbent_objective ≤
        h.feasible_incumbent_objective := by
  induction events with
  | nil => intro h; exact le_refl _
  | cons e t ih =>
    intro h
    exact le_trans (ih (tryUpdate h e.1 e.2).2) (tryUpdate_feasible_le h e.1 e.2)

/-- Splitting a run at a prefix. -/
theorem runHolder_append {α : Type} (h : IncumbentHolder α)
    (l1 l2 : List (α × SolutionScore)) :
    runHolder h (l1 ++ l2) = runHolder (runHolder h l1) l2 :=
  List.foldl_append ..

/-- C6: along any sequence of `try_update_incumbent` calls after
`initialize`, the stored global-augmented and feasible incumbent
objectives are non-increasing, and one call changes a stored incumbent
objective only when the presented score's corresponding objective is
strictly smaller than the stored value. -/
theorem C6_incumbent_monotonicity (α : Type) (events : List (α × SolutionScore))
    (i j : Nat) (hij : i ≤ j) :
    ((runHolder (initHolder α) (events.take j)).global_augmented_incumbent_objective ≤
        (runHolder (initHolder α) (events.take i)).global_augmented_incumbent_objective ∧
      (runHolder (initHolder α) (events.take j)).feasible_incumbent_objective ≤
        (runHolder (initHolder α) (events.take i)).feasible_incumbent_objective) ∧
    (∀ (h : IncumbentHolder α) (sol : α) (sc : SolutionScore),
      ((tryUpdate h sol sc).2.global_augmented_incumbent_objective ≠
          h.global_augmented_incumbent_objective →
        (sc.global_augmented_objective : WithTop ℚ) <
          h.global_augmented_incumbent_objective) ∧
      ((tryUpdate h sol sc).2.feasible_incumbent_objective ≠
          h.feasible_incumbent_objective →
        sc.is_feasible = true ∧
          (sc.objective : WithTop ℚ) < h.feasible_incumbent_objective) ∧
      ((tryUpdate h sol sc).2.local_augmented_incumbent_objective ≠
          h.local_augmented_incumbent_objective →
        (sc.local_augmented_objective : WithTop ℚ) <
          h.local_augmented_incumbent_objective)) := by
  constructor
  · have hsplit : events.take j = events.take i ++ (events.take j).drop i := by
      conv_lhs => rw [← List.take_append_drop i (events.take j)]
      rw [List.take_take, min_eq_left hij]
    rw [hsplit, runHolder_append]
    exact ⟨runHolder_global_le _ _, runHolder_feasible_le _ _⟩
  · intro h sol sc
    refine ⟨?_, ?_, ?_⟩
    · rw [tryUpdate_eq]
      dsimp only
      split_ifs with hg
      · intro _; exact hg
      · intro hne; exact absurd rfl hne
    · rw [tryUpdate_eq]
      dsimp only
      split_ifs with hg
      · intro _; exact hg
      · intro hne; exact absurd rfl hne
    · rw [tryUpdate_eq]
      dsimp only
      split_ifs with hg
      · intro _; exact hg
      · intro hne; exact absurd rfl hne

/-- C6, witness: a two-event sequence on `Nat` solutions, prefixes of
lengths 0 and 2. -/
theorem C6_incumbent_monotonicity_witness :
    (0 : Nat) ≤ 2 ∧
    ((runHolder (initHolder Nat)
          ([(5, sampleScore 1), (7, sampleScore 2)].take 2)).global_augmented_incumbent_objective ≤
        (runHolder (initHolder Nat)
          ([(5, sampleScore 1), (7, sampleScore 2)].take 0)).global_augmented_incumbent_objective ∧
      (runHolder (initHolder Nat)
          ([(5, sampleScore 1), (7, sampleScore 2)].take 2)).feasible_incumbent_objective ≤
        (runHolder (initHolder Nat)
          ([(5, sampleScore 1), (7, sampleScore 2)].take 0)).feasible_incumbent_objective) ∧
    (∀ (h : IncumbentHolder Nat) (sol : Nat) (sc : SolutionScore),
      ((tryUpdate h sol sc).2.global_augmented_incumbent_objective ≠
          h.global_augmented_incumbent_objective →
        (sc.global_augmented_objective : WithTop ℚ) <
          h.global_augmented_incumbent_objective) ∧
      ((tryUpdate h sol sc).2.feasible_incumbent_objective ≠
          h.feasible_incumbent_objective →
        sc.is_feasible = true ∧
          (sc.objective : WithTop ℚ) < h.feasible_incumbent_objective) ∧
      ((tryUpdate h sol sc).2.local_augmented_incumbent_objective ≠
          h.local_augmented_incumbent_objective →
        (sc.local_augmented_objective : WithTop ℚ) <
          h.local_augmented_incumbent_objective)) :=
  ⟨by decide,
    C6_incumbent_monotonicity Nat [(5, sampleScore 1), (7, sampleScore 2)] 0 2 (by decide)⟩

/-- The feasibility flag after one `tryUpdate`. -/
theorem tryUpdate_found {α : Type} (h : IncumbentHolder α) (sol : α) (sc : SolutionScore) :
    (tryUpdate h sol sc).2.found_feasible_solution =
      (h.found_feasible_solution || sc.is_feasible) := by
  rw [tryUpdate_eq]
  dsimp only
  by_cases hf : sc.is_feasible = true
  · simp [hf]
  · simp only [Bool.not_eq_true] at hf
    simp [hf]

/-- The feasibility flag after a run: true exactly when some presented
score was feasible (or the flag already held). -/
theorem runHolder_found {α : Type} (events : List (α × SolutionScore)) :
    ∀ h : IncumbentHolder α,
      (runHolder h events).found_feasible_solution =
        (h.found_feasible_solution || events.any (fun e => e.2.is_feasible)) := by
  induction events with
  | nil => intro h; simp [runHolder]
  | cons e t ih =>
    intro h
    show (runHolder (tryUpdate h e.1 e.2).2 t).found_feasible_solution = _
    rw [ih, tryUpdate_found]
    simp [Bool.or_assoc]

/-- C7: the solution the outer loop exports is the feasible incumbent
when any score presented during the whole solve was feasible, and the
global augmented incumbent otherwise. -/
theorem C7_export_choice (α : Type) (events : List (α × SolutionScore)) :
    ((∃ e ∈ events, e.2.is_feasible = true) →
        exportedIncumbent (runHolder (initHolder α) events) =
          (runHolder (initHolder α) events).feasible_incumbent_solution) ∧
    ((∀ e ∈ events, e.2.is_feasible = false) →
        exportedIncumbent (runHolder (initHolder α) events) =
          (runHolder (initHolder α) events).global_augmented_incumbent_solution) := by
  have hfound : (runHolder (initHolder α) events).found_feasible_solution =
      events.any (fun e => e.2.is_feasible) := by
    rw [runHolder_found]
    simp [initHolder]
  constructor
  · intro hex
    unfold exportedIncumbent
    rw [hfound, if_pos]
    exact List.any_eq_true.mpr hex
  · intro hall
    unfold exportedIncumbent
    rw [hfound, if_neg]
    simp only [List.any_eq_true]
    rintro ⟨e, he, hfeas⟩
    rw [hall e he] at hfeas
    exact Bool.false_ne_true hfeas

/-- C7, witness: one feasible event forces the feasible incumbent to be
exported. -/
theorem C7_export_choice_witness :
    (∃ e ∈ [((3 : Nat), sampleScore 1)], e.2.is_feasible = true) ∧
    exportedIncumbent (runHolder (initHolder Nat) [((3 : Nat), sampleScore 1)]) =
      (runHolder (initHolder Nat) [((3 : Nat), sampleScore 1)]).feasible_incumbent_solution :=
  ⟨by decide, (C7_export_choice Nat [((3 : Nat), sampleScore 1)]).1 (by decide)⟩

/-! ## C8: the solve guard -/

/-- C8: the first `solve` on a model marks it solved before the search
runs (the search receives the marked model), and a second `solve` on the
model that came out of the first fails with `AlreadySolved`. -/
theorem C8_already_solved {β γ : Type} (m : SolverModel)
    (search : SolverModel → β) (search2 : SolverModel → γ)
    (hnew : m.is_solved = false) :
    solveEntry m search =
      Except.ok ({ is_solved := true }, search { is_solved := true }) ∧
    (∀ (m' : SolverModel) (b : β), solveEntry m search = Except.ok (m', b) →
      m'.is_solved = true ∧
        solveEntry m' search2 = Except.error SolveError.AlreadySolved) := by
  have hm : solveEntry m search =
      Except.ok ({ is_solved := true }, search { is_solved := true }) := by
    unfold solveEntry
    rw [if_neg]
    rw [hnew]
    exact fun hc => Bool.false_ne_true hc
  refine ⟨hm, ?_⟩
  intro m' b hok
  rw [hm] at hok
  have hm' : m' = { is_solved := true } := by
    injection hok with h1
    injection h1 with h2 _
    exact h2.symm
  subst hm'
  exact ⟨rfl, by unfold solveEntry; rw [if_pos rfl]⟩

/-- C8, witness: a fresh model. -/
theorem C8_already_solved_witness :
    (({ is_solved := false } : SolverModel).is_solved = false) ∧
    (solveEntry { is_solved := false } (fun mm => mm.is_solved) =
        Except.ok ({ is_solved := true }, ({ is_solved := true } : SolverModel).is_solved) ∧
      (∀ (m' : SolverModel) (b : Bool),
        solveEntry { is_solved := false } (fun mm => mm.is_solved) = Except.ok (m', b) →
        m'.is_solved = true ∧
          solveEntry m' (fun mm => mm.is_solved) =
            Except.error SolveError.AlreadySolved)) :=
  ⟨by decide,
    C8_already_solved { is_solved := false } (fun mm => mm.is_solved)
      (fun mm => mm.is_solved) (by decide)⟩

/-! ## C2: the stagnation counter of the outer loop -/

/-- C2, counterexample: in a loop whose `try_update_incumbent` status is
`STATUS_LOCAL_AUGMENTED_INCUMBENT_UPDATE` (bit value 1), the global
augmented incumbent was not updated (the status has no
`STATUS_GLOBAL_AUGMENTED_INCUMBENT_UPDATE` bit), yet with threshold 5
and counter 0 the source resets the counter to 0 instead of
incrementing it to 1: the source tests
`update_status && STATUS_GLOBAL_AUGMENTED_INCUMBENT_UPDATE` with the
C++ logical AND instead of the bitwise one. -/
theorem C2_counterexample_reset_on_local_update :
    Nat.land STATUS_LOCAL_AUGMENTED_INCUMBENT_UPDATE
        STATUS_GLOBAL_AUGMENTED_INCUMBENT_UPDATE = 0 ∧
    (notUpdateCountStep STATUS_LOCAL_AUGMENTED_INCUMBENT_UPDATE 5 0).1 ≠ 0 + 1 := by
  decide

/-- C2, amended: the counter resets to zero (with the reset flag kept
false) whenever `try_update_incumbent` returned any non-zero status —
not only a global-augmented update, because the source combines
`update_status` and the status constant with the logical AND; otherwise
it increments, and on reaching
`penalty_coefficient_reset_count_threshold` it wraps to zero with the
reset flag raised, whereupon the local penalty coefficient vector is set
equal to the global one. -/
theorem C2_not_update_count_amended (update_status threshold count : Nat) :
    (update_status ≠ 0 →
      notUpdateCountStep update_status threshold count = (0, false)) ∧
    (update_status = 0 → count + 1 = threshold →
      notUpdateCountStep update_status threshold count = (0, true)) ∧
    (update_status = 0 → count + 1 ≠ threshold →
      notUpdateCountStep update_status threshold count = (count + 1, false)) ∧
    (∀ (gap : ℚ) (localFeas grouping : Bool)
        (violations localCoefs globalCoefs : List (List ℚ)) (tr rr bal ipc : ℚ),
      (notUpdateCountStep update_status threshold count).2 = true →
        updatePenaltyCoefficients (notUpdateCountStep update_status threshold count).2
          gap localFeas violations localCoefs globalCoefs tr rr bal ipc grouping =
          globalCoefs) := by
  refine ⟨?_, ?_, ?_, ?_⟩
  · intro h
    unfold notUpdateCountStep
    rw [if_pos ⟨h, by decide⟩]
  · intro h0 hth
    unfold notUpdateCountStep
    have hn : ¬(update_status ≠ 0 ∧ STATUS_GLOBAL_AUGMENTED_INCUMBENT_UPDATE ≠ 0) :=
      fun hc => hc.1 h0
    rw [if_neg hn, if_pos hth]
  · intro h0 hth
    unfold notUpdateCountStep
    have hn : ¬(update_status ≠ 0 ∧ STATUS_GLOBAL_AUGMENTED_INCUMBENT_UPDATE ≠ 0) :=
      fun hc => hc.1 h0
    rw [if_neg hn, if_neg hth]
  · intro gap localFeas grouping violations localCoefs globalCoefs tr rr bal ipc hflag
    rw [hflag]
    unfold updatePenaltyCoefficients
    rw [if_pos rfl]

/-- C2, witness for the amended counter step: status 3, threshold 5,
counter 7. -/
theorem C2_not_update_count_amended_witness :
    (3 : Nat) ≠ 0 ∧ notUpdateCountStep 3 5 7 = (0, false) :=
  ⟨by decide, (C2_not_update_count_amended 3 5 7).1 (by decide)⟩

/-! ## C3: penalty-coefficient tightening -/

/-- EPSILON is positive. -/
theorem EPSILON_pos : (0 : ℚ) < EPSILON := by decide

/-- C3: in the tightening branch (gap above `EPSILON`, infeasible local
incumbent, no reset), every local penalty coefficient becomes the old
value plus
`tightening_rate · (balance · Δ/total_penalty + (1−balance) · Δ·v/total_sq_violation)`,
capped at `initial_penalty_coefficient`, and in particular every
resulting coefficient is at most `initial_penalty_coefficient`
(grouping disabled). -/
theorem C3_penalty_tightening
    (gap : ℚ) (violations localCoefs globalCoefs : List (List ℚ))
    (tr rr bal ipc : ℚ)
    (hgap : EPSILON < gap)
    (hlen : localCoefs.length = violations.length)
    (hlen2 : ∀ p, p < localCoefs.length →
      (localCoefs.getD p []).length = (violations.getD p []).length)
    (_hnn : ∀ proxy ∈ violations, ∀ v ∈ proxy, 0 ≤ v)
    (_hinf : ∃ proxy ∈ violations, ∃ v ∈ proxy, 0 < v) :
    ∀ p f, p < localCoefs.length → f < (localCoefs.getD p []).length →
      getAt (updatePenaltyCoefficients false gap false violations localCoefs globalCoefs
          tr rr bal ipc false) p f 0 =
        min (getAt localCoefs p f 0 +
          tr * (bal * (gap / (violations.map List.sum).sum) +
            (1 - bal) * (gap * getAt violations p f 0 /
              (violations.map (fun proxy => (proxy.map (fun v => v * v)).sum)).sum))) ipc ∧
      getAt (updatePenaltyCoefficients false gap false violations localCoefs globalCoefs
          tr rr bal ipc false) p f 0 ≤ ipc := by
  intro p f hp hf
  have h0gap : (0 : ℚ) < gap := lt_trans EPSILON_pos hgap
  have hmax : max 0 gap = gap := max_eq_right (le_of_lt h0gap)
  have hp2 : p < violations.length := hlen ▸ hp
  have hfl : f < (violations.getD p []).length := (hlen2 p hp) ▸ hf
  have hres : updatePenaltyCoefficients false gap false violations localCoefs globalCoefs
      tr rr bal ipc false =
      List.zipWith
        (fun proxy vio =>
          (List.zipWith
            (fun e v =>
              e + tr *
                (bal * (max 0 gap / (violations.map List.sum).sum) +
                  (1 - bal) * (max 0 gap /
                    (violations.map (fun proxy => (proxy.map (fun v => v * v)).sum)).sum * v)))
            proxy vio).map (fun e => min e ipc))
        localCoefs violations := by
    unfold updatePenaltyCoefficients
    rw [if_neg Bool.false_ne_true, if_pos ⟨hgap, rfl⟩]
    simp
  rw [hres]
  unfold getAt
  rw [getD_zipWith _ localCoefs violations p hp hp2 [] [] []]
  have hstep : f < (List.zipWith
      (fun e v =>
        e + tr *
          (bal * (max 0 gap / (violations.map List.sum).sum) +
            (1 - bal) * (max 0 gap /
              (violations.map (fun proxy => (proxy.map (fun v => v * v)).sum)).sum * v)))
      (localCoefs.getD p []) (violations.getD p [])).length := by
    rw [List.length_zipWith]
    exact lt_min hf hfl
  rw [getD_map_of_lt _ _ f hstep 0 0]
  rw [getD_zipWith _ (localCoefs.getD p []) (violations.getD p []) f hf hfl 0 0 0]
  rw [hmax]
  constructor
  · congr 1
    rw [div_mul_eq_mul_div]
  · exact min_le_right _ _

/-- C3, witness: one proxy with one violated constraint. -/
theorem C3_penalty_tightening_witness :
    (EPSILON < (1 : ℚ) ∧
      ([[(0 : ℚ)]] : List (List ℚ)).length = ([[(1 : ℚ)]] : List (List ℚ)).length ∧
      (∀ p, p < ([[(0 : ℚ)]] : List (List ℚ)).length →
        (([[(0 : ℚ)]] : List (List ℚ)).getD p []).length =
          (([[(1 : ℚ)]] : List (List ℚ)).getD p []).length) ∧
      (∀ proxy ∈ ([[(1 : ℚ)]] : List (List ℚ)), ∀ v ∈ proxy, 0 ≤ v) ∧
      (∃ proxy ∈ ([[(1 : ℚ)]] : List (List ℚ)), ∃ v ∈ proxy, 0 < v)) ∧
    (∀ p f, p < ([[(0 : ℚ)]] : List (List ℚ)).length →
      f < (([[(0 : ℚ)]] : List (List ℚ)).getD p []).length →
      getAt (updatePenaltyCoefficients false 1 false [[(1 : ℚ)]] [[(0 : ℚ)]] [[(9 : ℚ)]]
          1 1 1 1 false) p f 0 =
        min (getAt ([[(0 : ℚ)]] : List (List ℚ)) p f 0 +
          1 * (1 * ((1 : ℚ) / (([[(1 : ℚ)]] : List (List ℚ)).map List.sum).sum) +
            (1 - 1) * ((1 : ℚ) * getAt ([[(1 : ℚ)]] : List (List ℚ)) p f 0 /
              (([[(1 : ℚ)]] : List (List ℚ)).map
                (fun proxy => (proxy.map (fun v => v * v)).sum)).sum))) 1 ∧
      getAt (updatePenaltyCoefficients false 1 false [[(1 : ℚ)]] [[(0 : ℚ)]] [[(9 : ℚ)]]
          1 1 1 1 false) p f 0 ≤ 1) :=
  ⟨⟨by decide, by decide, by decide, by decide, by decide⟩,
    C3_penalty_tightening 1 [[(1 : ℚ)]] [[(0 : ℚ)]] [[(9 : ℚ)]] 1 1 1 1
      (by decide) (by decide) (by decide) (by decide) (by decide)⟩

/-! ## C4: auto-generated element names -/

/-- C4, counterexample: element 1 of a 1-D proxy of size 10 is named
`p[ 1]` (space-padded, matching the repository's own
`TestModel.setup_unique_name` expectations), not the zero-padded
`p[01]` the claim describes. -/
theorem C4_counterexample_space_padding :
    setup_unique_name_entry none "p" [10] 1 = "p[ 1]" ∧
    zero_padded_indices_label [10] 1 = "[01]" ∧
    indices_label [10] 1 ≠ zero_padded_indices_label [10] 1 := by
  refine ⟨?_, ?_, ?_⟩ <;> decide

/-- C4, amended: after `setup_unique_name`, a user-overridden element
keeps its name, and an auto-generated name is `base[i]` (1-D) or
`base[i, j]` (2-D) with each index right-aligned and space-padded (not
zero-padded) to the fixed width `max_digits`, the number of decimal
digits of the largest shape entry. -/
theorem C4_unique_name_amended :
    (∀ (s base : String) (shape : List Nat) (flat : Nat),
      setup_unique_name_entry (some s) base shape flat = s) ∧
    (∀ (base : String) (n i : Nat), 1 < n → i < n →
      setup_unique_name_entry none base [n] i =
        base ++ ("[" ++ padLeftSpaces (max_digits [n]) (toString i) ++ "]")) ∧
    (∀ (base : String) (m n i j : Nat), 1 < m * n → i < m → j < n →
      setup_unique_name_entry none base [m, n] (n * i + j) =
        base ++ ("[" ++ (padLeftSpaces (max_digits [m, n]) (toString i) ++ ", " ++
          padLeftSpaces (max_digits [m, n]) (toString j)) ++ "]")) := by
  refine ⟨fun s base shape flat => rfl, ?_, ?_⟩
  · intro base n i hn hi
    have hne : ¬(number_of_elements [n] = 1) := by
      simp [number_of_elements]
      omega
    show base ++ indices_label [n] i = _
    unfold indices_label
    rw [if_neg hne]
    have hmulti : multi_dimensional_index (compute_strides [n]) i = [i] := by
      simp [compute_strides, multi_dimensional_index]
    rw [hmulti]
    rfl
  · intro base m n i j hmn hi hj
    have hn0 : 0 < n := by omega
    have hne : ¬(number_of_elements [m, n] = 1) := by
      simp only [number_of_elements, List.prod_cons, List.prod_nil, Nat.mul_one]
      omega
    show base ++ indices_label [m, n] (n * i + j) = _
    unfold indices_label
    rw [if_neg hne]
    have hmulti : multi_dimensional_index (compute_strides [m, n]) (n * i + j) = [i, j] := by
      have hdiv : (n * i + j) / n = i := by
        rw [Nat.mul_add_div hn0, Nat.div_eq_of_lt hj]
        omega
      have hmod : (n * i + j) % n = j := by
        rw [Nat.mul_add_mod, Nat.mod_eq_of_lt hj]
      simp [compute_strides, multi_dimensional_index, hdiv, hmod]
    rw [hmulti]
    rfl

/-- C4, witness for the amended naming theorem: the proxies of the
repository's `TestModel.setup_unique_name` test. -/
theorem C4_unique_name_amended_witness :
    (1 < 10 ∧ 8 < 10 ∧ 1 < 20 * 30 ∧ 19 < 20 ∧ 28 < 30) ∧
    setup_unique_name_entry (some "_p_0") "p" [10] 0 = "_p_0" ∧
    setup_unique_name_entry none "p" [10] 8 =
      "p" ++ ("[" ++ padLeftSpaces (max_digits [10]) (toString 8) ++ "]") ∧
    setup_unique_name_entry none "g" [20, 30] (30 * 19 + 28) =
      "g" ++ ("[" ++ (padLeftSpaces (max_digits [20, 30]) (toString 19) ++ ", " ++
        padLeftSpaces (max_digits [20, 30]) (toString 28)) ++ "]") :=
  ⟨by decide,
    (C4_unique_name_amended).1 "_p_0" "p" [10] 0,
    (C4_unique_name_amended).2.1 "p" 10 8 (by decide) (by decide),
    (C4_unique_name_amended).2.2 "g" 20 30 19 28 (by decide) (by decide) (by decide)⟩

/-! ## C1: delta-evaluation agreement -/

/-- Effect of a single in-range assignment on the coefficient/value
inner product of a linear expression. -/
theorem zipsum_set :
    ∀ (c x : List ℚ) (i : Nat) (v : ℚ), i < x.length → c.length = x.length →
      (List.zipWith (fun a b => a * b) c (x.set i v)).sum =
        (List.zipWith (fun a b => a * b) c x).sum + (v - x.getD i 0) * c.getD i 0 := by
  intro c
  induction c with
  | nil =>
    intro x i v hi hlen
    have : x.length = 0 := hlen.symm
    omega
  | cons a ct ih =>
    intro x i v hi hlen
    cases x with
    | nil => simp at hi
    | cons y xt =>
      cases i with
      | zero =>
        simp only [List.set, List.zipWith_cons_cons, List.sum_cons, List.getD_cons_zero]
        ring
      | succ n =>
        have hn : n < xt.length := by simpa using hi
        have hl : ct.length = xt.length := by simpa using hlen
        simp only [List.set, List.zipWith_cons_cons, List.sum_cons, List.getD_cons_succ]
        rw [ih xt n v hn hl]
        ring

/-- The empty move leaves the assignment unchanged. -/
theorem applyMove_nil (x : List ℚ) : applyMove x [] = x := rfl

/-- Peeling one alteration off a move application. -/
theorem applyMove_cons (x : List ℚ) (a : Nat × ℚ) (t : List (Nat × ℚ)) :
    applyMove x (a :: t) = applyMove (x.set a.1 a.2) t := rfl

/-- Peeling one alteration off the first-order change. -/
theorem moveDelta_cons (e : LinExpr) (x : List ℚ) (a : Nat × ℚ) (t : List (Nat × ℚ)) :
    moveDelta e x (a :: t) = (a.2 - x.getD a.1 0) * e.coeffAt a.1 + moveDelta e x t := by
  simp [moveDelta]

/-- First-order exactness of linear expressions under a move whose
alterations touch pairwise distinct, in-range variables: evaluation
after the move is evaluation before plus the move's first-order
change. -/
theorem applyMove_eval :
    ∀ (alterations : List (Nat × ℚ)) (x : List ℚ) (e : LinExpr),
      (alterations.map Prod.fst).Nodup → (∀ a ∈ alterations, a.1 < x.length) →
      e.coeffs.length = x.length →
      e.eval (applyMove x alterations) = e.eval x + moveDelta e x alterations := by
  intro alterations
  induction alterations with
  | nil =>
    intro x e _ _ _
    simp [applyMove_nil, moveDelta]
  | cons a t ih =>
    intro x e hnodup hrange hlen
    have hhead : a.1 < x.length := hrange a (List.mem_cons_self a t)
    have hnodup' : (t.map Prod.fst).Nodup := by
      simp only [List.map_cons, List.nodup_cons] at hnodup
      exact hnodup.2
    have hheadnot : a.1 ∉ t.map Prod.fst := by
      simp only [List.map_cons, List.nodup_cons] at hnodup
      exact hnodup.1
    have hrange' : ∀ b ∈ t, b.1 < (x.set a.1 a.2).length := by
      intro b hb
      rw [List.length_set]
      exact hrange b (List.mem_cons_of_mem a hb)
    have hlen' : e.coeffs.length = (x.set a.1 a.2).length := by
      rw [List.length_set]
      exact hlen
    rw [applyMove_cons, ih (x.set a.1 a.2) e hnodup' hrange' hlen']
    have heval : e.eval (x.set a.1 a.2) =
        e.eval x + (a.2 - x.getD a.1 0) * e.coeffAt a.1 := by
      unfold LinExpr.eval LinExpr.coeffAt
      rw [zipsum_set e.coeffs x a.1 a.2 hhead hlen]
      ring
    have hdelta : moveDelta e (x.set a.1 a.2) t = moveDelta e x t := by
      unfold moveDelta
      congr 1
      apply List.map_congr_left
      intro b hb
      have hne : a.1 ≠ b.1 := by
        intro he
        exact hheadnot (he ▸ List.mem_map_of_mem Prod.fst hb)
      rw [getD_set_ne hne]
    rw [heval, hdelta, moveDelta_cons]
    ring

/-- Combining a base sum with touched-set differences: when the
difference vanishes off the touched set, adding the per-touched-element
differences to the full old sum gives the full new sum. -/
theorem delta_sum_combine (F R : Finset Nat) (hRF : R ⊆ F) (oldv newv : Nat → ℚ)
    (h0 : ∀ g ∈ F, g ∉ R → newv g = oldv g) :
    ((∑ g ∈ F, oldv g) + ∑ g ∈ R, (newv g - oldv g)) = ∑ g ∈ F, newv g := by
  have hext : (∑ g ∈ R, (newv g - oldv g)) = ∑ g ∈ F, (newv g - oldv g) :=
    Finset.sum_subset hRF (fun g hg hgr => by rw [h0 g hg hgr, sub_self])
  rw [hext, ← Finset.sum_add_distrib]
  apply Finset.sum_congr rfl
  intro g _
  ring

/-- C1: with `score_before` obtained by evaluating the empty move under
the same weights, the delta overload of `evaluate` agrees field-wise
with the full overload on every valid move (pairwise distinct in-range
alterations, and a related-constraint set that covers every constraint
in which an altered variable has a non-zero coefficient). -/
theorem C1_delta_evaluation_agreement
    (M : ModelE) (mv : MoveE) (lw gw : List ℚ) (x : List ℚ)
    (objImp conImp : List ℚ → Bool) (before : SolutionScore)
    (hobjlen : M.objective.coeffs.length = x.length)
    (hcon : ∀ c ∈ M.constraints, c.expr.coeffs.length = x.length)
    (hnodup : (mv.alterations.map Prod.fst).Nodup)
    (hrange : ∀ a ∈ mv.alterations, a.1 < x.length)
    (hrelated_sub : mv.related ⊆ Finset.range M.constraints.length)
    (hcover : ∀ g ∈ Finset.range M.constraints.length, g ∉ mv.related →
      ∀ a ∈ mv.alterations, (M.constr g).expr.coeffAt a.1 = 0)
    (hbefore : before = evaluateFull M emptyMove lw gw x objImp conImp) :
    evaluateDiff M mv before lw gw x objImp conImp =
      evaluateFull M mv lw gw x objImp conImp := by
  subst hbefore
  have hgetlen : ∀ g ∈ Finset.range M.constraints.length,
      (M.constr g).expr.coeffs.length = x.length := by
    intro g hg
    rw [Finset.mem_range] at hg
    have hmem : M.constr g ∈ M.constraints := by
      unfold ModelE.constr
      rw [List.getD_eq_getElem?_getD, List.getElem?_eq_getElem hg]
      exact List.getElem_mem hg
    exact hcon _ hmem
  have hkey : ∀ g ∈ Finset.range M.constraints.length,
      (M.constr g).expr.eval (applyMove x mv.alterations) =
        (M.constr g).expr.eval x + moveDelta (M.constr g).expr x mv.alterations := by
    intro g hg
    exact applyMove_eval mv.alterations x _ hnodup hrange (hgetlen g hg)
  have hdelta0 : ∀ g ∈ Finset.range M.constraints.length, g ∉ mv.related →
      moveDelta (M.constr g).expr x mv.alterations = 0 := by
    intro g hg hgr
    unfold moveDelta
    apply List.sum_eq_zero
    intro t ht
    obtain ⟨a, ha, rfl⟩ := List.mem_map.mp ht
    rw [hcover g hg hgr a ha, mul_zero]
  have hobj : M.objective.eval (applyMove x mv.alterations) =
      M.objective.eval x + moveDelta M.objective x mv.alterations :=
    applyMove_eval mv.alterations x _ hnodup hrange hobjlen
  have huntouched : ∀ g ∈ Finset.range M.constraints.length, g ∉ mv.related →
      violationOf (M.constr g).sense
          ((M.constr g).expr.eval x + moveDelta (M.constr g).expr x mv.alterations) =
        (M.constr g).violation x := by
    intro g hg hgr
    rw [hdelta0 g hg hgr, add_zero]
    rfl
  have htv : ((∑ g ∈ Finset.range M.constraints.length, (M.constr g).violation x) +
      ∑ g ∈ mv.related,
        (violationOf (M.constr g).sense
            ((M.constr g).expr.eval x + moveDelta (M.constr g).expr x mv.alterations) -
          (M.constr g).violation x)) =
      ∑ g ∈ Finset.range M.constraints.length,
        (M.constr g).violation (applyMove x mv.alterations) := by
    rw [delta_sum_combine (Finset.range M.constraints.length) mv.related hrelated_sub
      _ _ huntouched]
    apply Finset.sum_congr rfl
    intro g hg
    unfold Constr.violation
    rw [hkey g hg]
  have hwtv : ∀ w : List ℚ,
      ((∑ g ∈ Finset.range M.constraints.length, w.getD g 0 * (M.constr g).violation x) +
        ∑ g ∈ mv.related, w.getD g 0 *
          (violationOf (M.constr g).sense
              ((M.constr g).expr.eval x + moveDelta (M.constr g).expr x mv.alterations) -
            (M.constr g).violation x)) =
      ∑ g ∈ Finset.range M.constraints.length,
        w.getD g 0 * (M.constr g).violation (applyMove x mv.alterations) := by
    intro w
    have hmul : (∑ g ∈ mv.related, w.getD g 0 *
        (violationOf (M.constr g).sense
            ((M.constr g).expr.eval x + moveDelta (M.constr g).expr x mv.alterations) -
          (M.constr g).violation x)) =
        ∑ g ∈ mv.related,
          (w.getD g 0 * violationOf (M.constr g).sense
              ((M.constr g).expr.eval x + moveDelta (M.constr g).expr x mv.alterations) -
            w.getD g 0 * (M.constr g).violation x) := by
      apply Finset.sum_congr rfl
      intro g _
      ring
    rw [hmul, delta_sum_combine (Finset.range M.constraints.length) mv.related hrelated_sub
      (fun g => w.getD g 0 * (M.constr g).violation x)
      (fun g => w.getD g 0 * violationOf (M.constr g).sense
        ((M.constr g).expr.eval x + moveDelta (M.constr g).expr x mv.alterations))
      (fun g hg hgr => by dsimp only; rw [huntouched g hg hgr])]
    apply Finset.sum_congr rfl
    intro g hg
    unfold Constr.violation
    rw [hkey g hg]
  simp only [evaluateDiff, evaluateFull, emptyMove, applyMove_nil]
  rw [SolutionScore.mk.injEq]
  refine ⟨?_, ?_, ?_, ?_, ?_, ?_, ?_, rfl, rfl⟩
  · rw [hobj]
  · exact htv
  · exact hwtv lw
  · exact hwtv gw
  · rw [hobj, hwtv lw]
  · rw [hobj, hwtv gw]
  · rw [htv]

/-- C1, witness: a one-variable model with one `≤` constraint, the move
resetting the variable to zero, score_before from the empty move. -/
theorem C1_delta_evaluation_agreement_witness :
    ((⟨⟨[1], 0⟩, [⟨⟨[1], 0⟩, Sense.le⟩]⟩ : ModelE).objective.coeffs.length =
        [(1 : ℚ)].length ∧
      (∀ c ∈ (⟨⟨[1], 0⟩, [⟨⟨[1], 0⟩, Sense.le⟩]⟩ : ModelE).constraints,
        c.expr.coeffs.length = [(1 : ℚ)].length) ∧
      ((⟨[(0, 0)], {0}⟩ : MoveE).alterations.map Prod.fst).Nodup ∧
      (∀ a ∈ (⟨[(0, 0)], {0}⟩ : MoveE).alterations, a.1 < [(1 : ℚ)].length) ∧
      (⟨[(0, 0)], {0}⟩ : MoveE).related ⊆
        Finset.range (⟨⟨[1], 0⟩, [⟨⟨[1], 0⟩, Sense.le⟩]⟩ : ModelE).constraints.length ∧
      (∀ g ∈ Finset.range (⟨⟨[1], 0⟩, [⟨⟨[1], 0⟩, Sense.le⟩]⟩ : ModelE).constraints.length,
        g ∉ (⟨[(0, 0)], {0}⟩ : MoveE).related →
        ∀ a ∈ (⟨[(0, 0)], {0}⟩ : MoveE).alterations,
          ((⟨⟨[1], 0⟩, [⟨⟨[1], 0⟩, Sense.le⟩]⟩ : ModelE).constr g).expr.coeffAt a.1 = 0)) ∧
    evaluateDiff (⟨⟨[1], 0⟩, [⟨⟨[1], 0⟩, Sense.le⟩]⟩ : ModelE) (⟨[(0, 0)], {0}⟩ : MoveE)
        (evaluateFull (⟨⟨[1], 0⟩, [⟨⟨[1], 0⟩, Sense.le⟩]⟩ : ModelE) emptyMove [2] [3]
          [(1 : ℚ)] (fun _ => false) (fun _ => false))
        [2] [3] [(1 : ℚ)] (fun _ => false) (fun _ => false) =
      evaluateFull (⟨⟨[1], 0⟩, [⟨⟨[1], 0⟩, Sense.le⟩]⟩ : ModelE) (⟨[(0, 0)], {0}⟩ : MoveE)
        [2] [3] [(1 : ℚ)] (fun _ => false) (fun _ => false) :=
  ⟨⟨by decide, by decide, by decide, by decide, by decide, by decide⟩,
    C1_delta_evaluation_agreement (⟨⟨[1], 0⟩, [⟨⟨[1], 0⟩, Sense.le⟩]⟩ : ModelE)
      (⟨[(0, 0)], {0}⟩ : MoveE) [2] [3] [(1 : ℚ)] (fun _ => false) (fun _ => false)
      (evaluateFull (⟨⟨[1], 0⟩, [⟨⟨[1], 0⟩, Sense.le⟩]⟩ : ModelE) emptyMove [2] [3]
        [(1 : ℚ)] (fun _ => false) (fun _ => false))
      (by decide) (by decide) (by decide) (by decide) (by decide) (by decide) rfl⟩

end CppMH
